import Mathlib

/-
  Shallow embedding of the attribute-reconciliation core of
  trevex/terraform-provider-ldap (files provider.go, ldap_object.go,
  ldap_object_attributes.go).

  A Terraform `schema.Set` of attributes is a hash-keyed set of single-entry
  maps `name => value`; assuming the CRC32 content hash is collision-free (the
  set is "keyed by a deterministic hash so that structurally identical values
  collapse to one entry"), membership is structural equality on the
  (name, value) pair.  We embed such a set as a duplicate-free list of pairs;
  iteration order of the embedded list stands in for the hash iteration order
  of the Go set, which no reconciliation property depends on.
-/

namespace LdapProvider

/-- One attribute value: a single-entry map `name => value`. -/
abbrev AttrVal := String × String

/-- A `schema.Set` of single-entry maps, embedded as a list of pairs. -/
abbrev AttrSet := List AttrVal

/-- Membership test of a `schema.Set` (hash lookup = structural equality). -/
def setContains (s : AttrSet) (x : AttrVal) : Bool :=
  s.any (fun y => decide (y = x))

/-- `schema.Set.Add`: insert if the hash key is absent. -/
def setAdd (s : AttrSet) (x : AttrVal) : AttrSet :=
  if setContains s x then s else s ++ [x]

/-- `schema.Set.Difference`: elements of `s` absent from `t`. -/
def setDiff (s t : AttrSet) : AttrSet :=
  s.filter (fun x => !setContains t x)

/-- `schema.Set.Intersection`: elements of `s` present in `t`. -/
def setInter (s t : AttrSet) : AttrSet :=
  s.filter (fun x => setContains t x)

/-- `schema.Set.Union`: elements of `s`, then the elements of `t` not in `s`. -/
def setUnion (s t : AttrSet) : AttrSet :=
  s ++ t.filter (fun x => !setContains s x)

/-- `stringSliceContains` (ldap_object.go): linear scan of a string slice. -/
def stringSliceContains (haystack : List String) (needle : String) : Bool :=
  haystack.any (fun h => decide (needle = h))

/-- Modelled from the spec: the repository's `util.Set` (package util, not under
src/) collects attribute NAMES; §4.3 of the spec partitions names into sets, so
`Add` is insert-if-absent on a string collection. -/
def nsAdd (s : List String) (k : String) : List String :=
  if stringSliceContains s k then s else s ++ [k]

/-- The distinct attribute names of a set, in first-occurrence order: the Go
loops `for _, v := range set.List() { for k := range v { names.Add(k) } }`. -/
def namesOf (l : AttrSet) : List String :=
  l.foldl (fun acc x => nsAdd acc x.1) []

section SetLemmas

theorem setContains_iff (s : AttrSet) (x : AttrVal) :
    setContains s x = true ↔ x ∈ s := by
  simp [setContains, List.any_eq_true]

theorem stringSliceContains_iff (l : List String) (k : String) :
    stringSliceContains l k = true ↔ k ∈ l := by
  rw [stringSliceContains, List.any_eq_true]
  constructor
  · rintro ⟨x, hx, hk⟩
    rw [of_decide_eq_true hk]
    exact hx
  · intro h
    exact ⟨k, h, decide_eq_true rfl⟩

theorem setContains_eq_false (s : AttrSet) (x : AttrVal) :
    setContains s x = false ↔ x ∉ s := by
  constructor
  · intro h hx
    rw [(setContains_iff s x).mpr hx] at h
    cases h
  · intro h
    cases hc : setContains s x
    · rfl
    · exact absurd ((setContains_iff s x).mp hc) h

theorem stringSliceContains_eq_false (l : List String) (k : String) :
    stringSliceContains l k = false ↔ k ∉ l := by
  constructor
  · intro h hx
    rw [(stringSliceContains_iff l k).mpr hx] at h
    cases h
  · intro h
    cases hc : stringSliceContains l k
    · rfl
    · exact absurd ((stringSliceContains_iff l k).mp hc) h

theorem mem_setAdd (s : AttrSet) (x y : AttrVal) :
    y ∈ setAdd s x ↔ y ∈ s ∨ y = x := by
  by_cases h : x ∈ s
  · rw [setAdd, if_pos ((setContains_iff s x).mpr h)]
    constructor
    · exact Or.inl
    · rintro (hy | rfl)
      · exact hy
      · exact h
  · rw [setAdd, if_neg (fun hh => h ((setContains_iff s x).mp hh)),
      List.mem_append, List.mem_singleton]

theorem mem_setDiff (s t : AttrSet) (x : AttrVal) :
    x ∈ setDiff s t ↔ x ∈ s ∧ x ∉ t := by
  rw [setDiff, List.mem_filter, Bool.not_eq_true', setContains_eq_false]

theorem mem_setInter (s t : AttrSet) (x : AttrVal) :
    x ∈ setInter s t ↔ x ∈ s ∧ x ∈ t := by
  rw [setInter, List.mem_filter, setContains_iff]

theorem mem_setUnion (s t : AttrSet) (x : AttrVal) :
    x ∈ setUnion s t ↔ x ∈ s ∨ x ∈ t := by
  rw [setUnion, List.mem_append, List.mem_filter, Bool.not_eq_true',
    setContains_eq_false]
  constructor
  · rintro (h | ⟨h, _⟩)
    · exact Or.inl h
    · exact Or.inr h
  · rintro (h | h)
    · exact Or.inl h
    · by_cases hs : x ∈ s
      · exact Or.inl hs
      · exact Or.inr ⟨h, hs⟩

theorem setDiff_self (s : AttrSet) : setDiff s s = [] := by
  rw [setDiff, List.filter_eq_nil_iff]
  intro a ha
  simp [setContains_iff, ha]

theorem setDiff_nil_left (s : AttrSet) : setDiff [] s = [] := rfl

theorem setDiff_nil_right (s : AttrSet) : setDiff s [] = s := by
  rw [setDiff, List.filter_eq_self]
  intro a _
  simp [setContains]

theorem setInter_nil_right (s : AttrSet) : setInter s [] = [] := by
  rw [setInter, List.filter_eq_nil_iff]
  intro a _
  simp [setContains]

theorem mem_nsAdd (s : List String) (k j : String) :
    j ∈ nsAdd s k ↔ j ∈ s ∨ j = k := by
  by_cases h : k ∈ s
  · rw [nsAdd, if_pos ((stringSliceContains_iff s k).mpr h)]
    constructor
    · exact Or.inl
    · rintro (hy | rfl)
      · exact hy
      · exact h
  · rw [nsAdd, if_neg (fun hh => h ((stringSliceContains_iff s k).mp hh)),
      List.mem_append, List.mem_singleton]

theorem nodup_nsAdd (s : List String) (k : String) (h : s.Nodup) :
    (nsAdd s k).Nodup := by
  by_cases hc : k ∈ s
  · rw [nsAdd, if_pos ((stringSliceContains_iff s k).mpr hc)]
    exact h
  · rw [nsAdd, if_neg (fun hh => hc ((stringSliceContains_iff s k).mp hh)),
      List.nodup_append]
    refine ⟨h, List.nodup_singleton k, ?_⟩
    intro a ha hk
    rw [List.mem_singleton] at hk
    subst hk
    exact hc ha

theorem mem_namesOf_foldl (l : AttrSet) (acc : List String) (k : String) :
    k ∈ l.foldl (fun acc x => nsAdd acc x.1) acc ↔
      k ∈ acc ∨ ∃ x ∈ l, x.1 = k := by
  induction l generalizing acc with
  | nil => simp
  | cons a l ih =>
    simp only [List.foldl_cons, ih, mem_nsAdd, List.mem_cons]
    constructor
    · rintro (⟨h | h⟩ | ⟨x, hx, rfl⟩)
      · exact Or.inl h
      · exact Or.inr ⟨a, Or.inl rfl, h.symm⟩
      · exact Or.inr ⟨x, Or.inr hx, rfl⟩
    · rintro (h | ⟨x, hx | hx, rfl⟩)
      · exact Or.inl (Or.inl h)
      · subst hx
        exact Or.inl (Or.inr rfl)
      · exact Or.inr ⟨x, hx, rfl⟩

theorem mem_namesOf (l : AttrSet) (k : String) :
    k ∈ namesOf l ↔ ∃ x ∈ l, x.1 = k := by
  rw [namesOf, mem_namesOf_foldl]
  simp

theorem nodup_namesOf_foldl (l : AttrSet) (acc : List String) (h : acc.Nodup) :
    (l.foldl (fun acc x => nsAdd acc x.1) acc).Nodup := by
  induction l generalizing acc with
  | nil => simpa
  | cons a l ih =>
    exact ih (nsAdd acc a.1) (nodup_nsAdd acc a.1 h)

theorem nodup_namesOf (l : AttrSet) : (namesOf l).Nodup :=
  nodup_namesOf_foldl l [] List.nodup_nil

end SetLemmas

/-! ### Value codec (`toAttributeValue`, ldap_object.go)

The `unicodePwd` branch wraps the value in literal double quotes and encodes
it as UTF-16 little-endian without a byte-order mark
(`unicode.UTF16(LittleEndian, IgnoreBOM)`).  The x/text UTF-16 encoder has no
failing path: unrepresentable input bytes are substituted before encoding, so
its error result is always nil; the Go code discards it (`pwdEncoded, _ :=`)
and returns the encoder's output string. -/

/-- UTF-16 code units of one code point: one unit below 0x10000, otherwise a
surrogate pair. -/
def utf16CodeUnits (c : Nat) : List Nat :=
  if c < 0x10000 then [c]
  else
    let v := c - 0x10000
    [0xD800 + v / 0x400, 0xDC00 + v % 0x400]

/-- UTF-16 little-endian byte serialization of a string (no byte-order mark). -/
def utf16leBytes (s : String) : List Nat :=
  (s.data.map (fun ch => ((utf16CodeUnits ch.toNat).map
    (fun u => [u % 256, u / 256])).flatten)).flatten

/-- A Go byte string holding the UTF-16LE bytes, one char per byte. -/
def bytesToGoString (bs : List Nat) : String :=
  String.mk (bs.map (fun b => Char.ofNat b))

/-- The x/text `Encoder.String` call: output string plus error slot.  The
UTF-16 encoder never reports an error, so the slot is always `none`. -/
def utf16leEncoderString (s : String) : String × Option String :=
  (bytesToGoString (utf16leBytes s), none)

/-- `toAttributeValue` (ldap_object.go): quote-and-UTF-16LE-encode the value
of `unicodePwd` (error discarded, as in `pwdEncoded, _ :=`); identity for
every other attribute name. -/
def toAttributeValue (name value : String) : String :=
  if name == "unicodePwd" then
    (utf16leEncoderString ("\"" ++ value ++ "\"")).1
  else value

/-! ### Modify directives -/

/-- One directive appended to an `ldap.ModifyRequest`: `modify.Add`,
`modify.Replace` or `modify.Delete`, each carrying a value list. -/
inductive Change
  | add (name : String) (values : List String)
  | replace (name : String) (values : List String)
  | del (name : String) (values : List String)
deriving DecidableEq

/-- The attribute name a directive acts on. -/
def Change.name : Change → String
  | .add n _ => n
  | .replace n _ => n
  | .del n _ => n

/-- Is the directive a `Replace`? -/
def Change.isReplace : Change → Bool
  | .replace _ _ => true
  | _ => false

/-! ### Full-ownership diff engine (`computeAndAddDeltas`, ldap_object.go) -/

/-- The closure `shouldSkipAttribute` inside `computeAndAddDeltas`: a name is
excluded when the allow list is non-empty and does not contain it, or when the
deny list is non-empty and contains it. -/
def shouldSkipAttribute (attributesToSet attributesToSkip : List String)
    (k : String) : Bool :=
  if attributesToSet.length > 0 && !stringSliceContains attributesToSet k then
    true
  else if attributesToSkip.length > 0 &&
      stringSliceContains attributesToSkip k then
    true
  else false

/-- The value-gathering loop of both diff engines: all values under name `k`
in set `ns`, each passed through `toAttributeValue`. -/
def gatherValues (ns : AttrSet) (k : String) : List String :=
  ns.foldl (fun acc x =>
    if k == x.1 then acc ++ [toAttributeValue k x.2] else acc) []

/-- One iteration of the removed-names / added-names loops of
`computeAndAddDeltas`: skip filtered names, emit `mk k` when the name lives in
no other partition, otherwise classify the name as changed. -/
def deltaStep (skipF cond : String → Bool) (mk : String → Change)
    (acc : List Change × List String) (k : String) :
    List Change × List String :=
  if skipF k then acc
  else if cond k then (acc.1 ++ [mk k], acc.2)
  else (acc.1, nsAdd acc.2 k)

/-- `computeAndAddDeltas` (ldap_object.go): partition the attribute names of
`os.Difference(ns)`, `ns.Difference(os)` and `ns.Intersection(os)` into
removed / added / kept, emit `Delete(k, [])` for fully removed names,
`Add(k, values)` for brand-new names, and `Replace(k, values)` for names
reclassified as changed.  Returns `modify.Changes` in emission order. -/
def computeAndAddDeltas (os ns : AttrSet)
    (attributesToSkip attributesToSet : List String) : List Change :=
  let skipF := shouldSkipAttribute attributesToSet attributesToSkip
  let rk := namesOf (setDiff os ns)
  let ak := namesOf (setDiff ns os)
  let kk := namesOf (setInter ns os)
  let step1 := rk.foldl
    (deltaStep skipF
      (fun k => !stringSliceContains ak k && !stringSliceContains kk k)
      (fun k => Change.del k [])) ([], [])
  let step2 := ak.foldl
    (deltaStep skipF
      (fun k => !stringSliceContains rk k && !stringSliceContains kk k)
      (fun k => Change.add k (gatherValues ns k))) step1
  step2.2.foldl (fun acc k =>
    if skipF k then acc
    else acc ++ [Change.replace k (gatherValues ns k)]) step2.1

/-! ### Partial-ownership diff engine
(`computeAndAddAttributeDeltas`, ldap_object_attributes.go) -/

/-- `computeAndAddAttributeDeltas` (ldap_object_attributes.go): for every name
of `os.Difference(ns)` emit `Delete(k, removedValues)`, then for every name of
`ns.Difference(os)` emit `Add(k, addedValues)`, the value payloads taken from
the difference sets themselves. -/
def computeAndAddAttributeDeltas (os ns : AttrSet) : List Change :=
  let ra := setDiff os ns
  let rk := namesOf ra
  let aa := setDiff ns os
  let ak := namesOf aa
  let dels := rk.foldl
    (fun acc k => acc ++ [Change.del k (gatherValues ra k)]) []
  ak.foldl (fun acc k => acc ++ [Change.add k (gatherValues aa k)]) dels

/-! ### Directory interface and the CRUD operations

A search either returns the entry at the base DN (its attributes, each a name
with its value list) or a Go error, which is an `*ldap.Error` carrying a
result code, or some other error.  Result code 32 is "no such object". -/

/-- An error from the LDAP client: a typed `*ldap.Error` with its result code,
or any other error value. -/
inductive GoErr
  | ldap (resultCode : Nat)
  | other (msg : String)
deriving DecidableEq

/-- The `if err, ok := err.(*ldap.Error); ok && err.ResultCode == 32` test. -/
def isNoSuchObject : GoErr → Bool
  | .ldap code => code == 32
  | .other _ => false

/-- The attributes of a directory entry: each attribute name with its values. -/
abbrev Entry := List (String × List String)

/-- Effect of an operation on `d` (the Terraform resource data): what happened
to the resource id, whether an attribute set was stored, and the returned
error. -/
inductive IdAction
  | unchanged
  | cleared
  | setTo (dn : String)
deriving DecidableEq

structure ReadOut where
  idAct : IdAction
  attrs : Option AttrSet
  err : Option GoErr
deriving DecidableEq

/-- `resourceLDAPObjectExists` (ldap_object.go): a code-32 search failure
means the object is gone (`false`, no error); any other failure is surfaced;
success means the object exists. -/
def resourceLDAPObjectExists (searchResult : Except GoErr Entry) :
    Except GoErr Bool :=
  match searchResult with
  | .error e => if isNoSuchObject e then .ok false else .error e
  | .ok _ => .ok true

/-- The attribute loop of `readLDAPObject` (ldap_object.go): drop names on the
skip list, drop unselected names when the allow list is non-empty, drop a
single-valued attribute whose `name=value` rendering starts the DN (the RDN),
and add every remaining value as its own `name => value` map. -/
def buildReadAttrSet (dn : String) (attributesToSkip attributesToSet : List String)
    (entryAttrs : Entry) : AttrSet :=
  entryAttrs.foldl (fun set a =>
    if stringSliceContains attributesToSkip a.1 then set
    else if attributesToSet.length > 0 &&
        !stringSliceContains attributesToSet a.1 then set
    else if a.2.length == 1 && dn.startsWith (a.1 ++ "=" ++ a.2.headD "") then
      set
    else a.2.foldl (fun s v => setAdd s (a.1, v)) set) []

/-- `readLDAPObject` (ldap_object.go): on a code-32 failure with `updateState`
the id is cleared and no error is returned; other failures are surfaced; on
success the id is set and the rebuilt attribute set is stored, with
"objectClass" pushed onto the skip list ahead of the user's entries. -/
def readLDAPObject (dn : String) (skipAttrs selAttrs : List String)
    (updateState : Bool) (searchResult : Except GoErr Entry) : ReadOut :=
  match searchResult with
  | .error e =>
      if isNoSuchObject e && updateState then ⟨.cleared, none, none⟩
      else ⟨.unchanged, none, some e⟩
  | .ok entryAttrs =>
      ⟨.setTo dn,
       some (buildReadAttrSet dn ("objectClass" :: skipAttrs) selAttrs
         entryAttrs),
       none⟩

/-- The attribute-map loop of `resourceLDAPObjectCreate` (ldap_object.go): the
(name, encoded value) pairs that survive the skip list — "objectClass"
first — and the select list, in input order.  The add request carries exactly
these pairs, grouped by name. -/
def resourceLDAPObjectCreateAttrPairs (attrs : AttrSet)
    (skipAttrs selAttrs : List String) : AttrSet :=
  let attributesToSkip := "objectClass" :: skipAttrs
  attrs.foldl (fun m x =>
    if stringSliceContains attributesToSkip x.1 then m
    else if selAttrs.length > 0 && !stringSliceContains selAttrs x.1 then m
    else m ++ [(x.1, toAttributeValue x.1 x.2)]) []

/-- `resourceLDAPObjectUpdate` (ldap_object.go): the modify request holds the
`Replace("objectClass", classes)` directive when the class set changed,
followed by the attribute deltas (with "objectClass" pushed onto the skip
list) when the attribute set changed. -/
def resourceLDAPObjectUpdateChanges (classesChanged : Bool)
    (classes : List String) (attrsChanged : Bool) (o n : AttrSet)
    (skipAttrs selAttrs : List String) : List Change :=
  (if classesChanged then [Change.replace "objectClass" classes] else []) ++
    (if attrsChanged then
      computeAndAddDeltas o n ("objectClass" :: skipAttrs) selAttrs
    else [])

/-! ### The partial-ownership resource (ldap_object_attributes.go) -/

/-- The LDAP-side set built by `resourceLDAPObjectAttributesRead`: every value
of every attribute of the live entry, except a single-valued attribute whose
`name=value` rendering starts the DN (the RDN). -/
def buildLdapSet (dn : String) (entryAttrs : Entry) : AttrSet :=
  entryAttrs.foldl (fun set a =>
    if a.2.length == 1 && dn.startsWith (a.1 ++ "=" ++ a.2.headD "") then set
    else a.2.foldl (fun s v => setAdd s (a.1, v)) set) []

/-- The union computed by `resourceLDAPObjectAttributesRead`: old ∪ new owned
sets while a change is pending, otherwise just the configured set. -/
def attributesReadUnion (change : Option (AttrSet × AttrSet)) (cur : AttrSet) :
    AttrSet :=
  match change with
  | some (o, n) => setUnion o n
  | none => cur

/-- `resourceLDAPObjectAttributesRead` (ldap_object_attributes.go): on a
code-32 failure the id is cleared, and the error is returned either way; on
success the stored set is the union of the owned sets intersected with the
live LDAP set — an empty intersection clears the id instead. -/
def resourceLDAPObjectAttributesRead (dn : String)
    (change : Option (AttrSet × AttrSet)) (cur : AttrSet)
    (searchResult : Except GoErr Entry) : ReadOut :=
  match searchResult with
  | .error e =>
      if isNoSuchObject e then ⟨.cleared, none, some e⟩
      else ⟨.unchanged, none, some e⟩
  | .ok entryAttrs =>
      let ldapSet := buildLdapSet dn entryAttrs
      let unionSet := attributesReadUnion change cur
      let set := setInter unionSet ldapSet
      if set.length == 0 then ⟨.cleared, none, none⟩
      else ⟨.setTo dn, some set, none⟩

/-- `resourceLDAPObjectAttributesUpdate` (ldap_object_attributes.go): the
modify request holds the attribute deltas when the owned set changed. -/
def resourceLDAPObjectAttributesUpdateChanges (attrsChanged : Bool)
    (o n : AttrSet) : List Change :=
  if attrsChanged then computeAndAddAttributeDeltas o n else []

/-- `resourceLDAPObjectAttributesDelete` (ldap_object_attributes.go): the
modify request holds the deltas from the owned set to the empty set. -/
def resourceLDAPObjectAttributesDeleteChanges (attrs : AttrSet) :
    List Change :=
  computeAndAddAttributeDeltas attrs []

/-! ### Lemmas about the diff engines -/

theorem namesOf_nil : namesOf [] = [] := rfl

theorem deltaStep_foldl_fst_inv (skipF cond : String → Bool)
    (mk : String → Change) (P : Change → Prop)
    (hmk : ∀ k, skipF k = false → P (mk k)) :
    ∀ (l : List String) (acc : List Change × List String),
      (∀ c ∈ acc.1, P c) →
      ∀ c ∈ (l.foldl (deltaStep skipF cond mk) acc).1, P c := by
  intro l
  induction l with
  | nil =>
    intro acc hacc c hc
    exact hacc c hc
  | cons k l ih =>
    intro acc hacc c hc
    rw [List.foldl_cons] at hc
    refine ih (deltaStep skipF cond mk acc k) ?_ c hc
    unfold deltaStep
    cases hs : skipF k
    · cases hcond : cond k
      · simpa using hacc
      · simp only [Bool.false_eq_true, if_false, hcond, if_true]
        intro d hd
        rw [List.mem_append, List.mem_singleton] at hd
        rcases hd with hd | rfl
        · exact hacc d hd
        · exact hmk k hs
    · simpa using hacc

theorem guarded_foldl_inv (skipF : String → Bool) (g : String → Change)
    (P : Change → Prop) (hg : ∀ k, skipF k = false → P (g k)) :
    ∀ (l : List String) (acc : List Change), (∀ c ∈ acc, P c) →
      ∀ c ∈ l.foldl
        (fun acc k => if skipF k then acc else acc ++ [g k]) acc, P c := by
  intro l
  induction l with
  | nil =>
    intro acc hacc c hc
    exact hacc c hc
  | cons k l ih =>
    intro acc hacc c hc
    rw [List.foldl_cons] at hc
    refine ih _ ?_ c hc
    cases hs : skipF k
    · simp only [hs, Bool.false_eq_true, if_false]
      intro d hd
      rw [List.mem_append, List.mem_singleton] at hd
      rcases hd with hd | rfl
      · exact hacc d hd
      · exact hg k hs
    · simpa [hs] using hacc

/-- Every directive emitted by the full-ownership engine names an attribute
that passed the filter policy. -/
theorem computeAndAddDeltas_not_skipped (os ns : AttrSet)
    (attributesToSkip attributesToSet : List String) (c : Change)
    (hc : c ∈ computeAndAddDeltas os ns attributesToSkip attributesToSet) :
    shouldSkipAttribute attributesToSet attributesToSkip c.name = false := by
  simp only [computeAndAddDeltas] at hc
  refine guarded_foldl_inv _ _
    (fun d => shouldSkipAttribute attributesToSet attributesToSkip d.name = false)
    ?_ _ _ ?_ c hc
  · intro k hk
    exact hk
  · refine deltaStep_foldl_fst_inv _ _ _ _ ?_ _ _ ?_
    · intro k hk
      exact hk
    · refine deltaStep_foldl_fst_inv _ _ _ _ ?_ _ _ ?_
      · intro k hk
        exact hk
      · intro d hd
        cases hd

theorem unguarded_foldl_eq (g : String → Change) :
    ∀ (l : List String) (acc : List Change),
      l.foldl (fun acc k => acc ++ [g k]) acc = acc ++ l.map g := by
  intro l
  induction l with
  | nil =>
    intro acc
    simp
  | cons k l ih =>
    intro acc
    rw [List.foldl_cons, ih, List.map_cons]
    simp

/-- The partial-ownership engine is literally: one `Delete` per removed name
with the removed values, then one `Add` per added name with the added
values. -/
theorem computeAndAddAttributeDeltas_eq (os ns : AttrSet) :
    computeAndAddAttributeDeltas os ns =
      (namesOf (setDiff os ns)).map
        (fun k => Change.del k (gatherValues (setDiff os ns) k)) ++
      (namesOf (setDiff ns os)).map
        (fun k => Change.add k (gatherValues (setDiff ns os) k)) := by
  simp only [computeAndAddAttributeDeltas, unguarded_foldl_eq, List.nil_append]

theorem computeAndAddAttributeDeltas_shape (os ns : AttrSet) (c : Change)
    (hc : c ∈ computeAndAddAttributeDeltas os ns) :
    ∃ k vs, c = Change.del k vs ∨ c = Change.add k vs := by
  rw [computeAndAddAttributeDeltas_eq, List.mem_append] at hc
  rcases hc with hc | hc <;> rw [List.mem_map] at hc <;>
    obtain ⟨k, _, rfl⟩ := hc
  · exact ⟨k, _, Or.inl rfl⟩
  · exact ⟨k, _, Or.inr rfl⟩

theorem mem_gatherValues_foldl (ns : AttrSet) (k : String) (v : String) :
    ∀ (acc : List String),
      v ∈ ns.foldl (fun acc x =>
        if k == x.1 then acc ++ [toAttributeValue k x.2] else acc) acc ↔
      v ∈ acc ∨ ∃ x ∈ ns, x.1 = k ∧ v = toAttributeValue k x.2 := by
  induction ns with
  | nil =>
    intro acc
    simp
  | cons a ns ih =>
    intro acc
    rw [List.foldl_cons]
    cases hk : (k == a.1)
    · simp only [Bool.false_eq_true, if_false, ih, List.mem_cons]
      constructor
      · rintro (h | ⟨x, hx, hxk, rfl⟩)
        · exact Or.inl h
        · exact Or.inr ⟨x, Or.inr hx, hxk, rfl⟩
      · rintro (h | ⟨x, hx | hx, hxk, rfl⟩)
        · exact Or.inl h
        · subst hx
          rw [hxk] at hk
          rw [beq_self_eq_true] at hk
          cases hk
        · exact Or.inr ⟨x, hx, hxk, rfl⟩
    · have hka : k = a.1 := eq_of_beq hk
      simp only [if_true, ih, List.mem_append, List.mem_cons,
        List.not_mem_nil, or_false]
      constructor
      · rintro (⟨h | rfl⟩ | ⟨x, hx, hxk, rfl⟩)
        · exact Or.inl h
        · exact Or.inr ⟨a, Or.inl rfl, hka.symm, rfl⟩
        · exact Or.inr ⟨x, Or.inr hx, hxk, rfl⟩
      · rintro (h | ⟨x, hx | hx, hxk, rfl⟩)
        · exact Or.inl (Or.inl h)
        · subst hx
          exact Or.inl (Or.inr rfl)
        · exact Or.inr ⟨x, hx, hxk, rfl⟩

theorem mem_gatherValues (ns : AttrSet) (k : String) (v : String) :
    v ∈ gatherValues ns k ↔
      ∃ x ∈ ns, x.1 = k ∧ v = toAttributeValue k x.2 := by
  rw [gatherValues, mem_gatherValues_foldl]
  simp

/-! ### Lemmas about the read-back set builders -/

theorem mem_valuesFold (name : String) (vs : List String) :
    ∀ (s : AttrSet) (x : AttrVal),
      x ∈ vs.foldl (fun s v => setAdd s (name, v)) s ↔
        x ∈ s ∨ (x.1 = name ∧ x.2 ∈ vs) := by
  induction vs with
  | nil =>
    intro s x
    simp
  | cons v vs ih =>
    intro s x
    rw [List.foldl_cons, ih, mem_setAdd, List.mem_cons]
    constructor
    · rintro (⟨h | rfl⟩ | ⟨h1, h2⟩)
      · exact Or.inl h
      · exact Or.inr ⟨rfl, Or.inl rfl⟩
      · exact Or.inr ⟨h1, Or.inr h2⟩
    · rintro (h | ⟨h1, h2 | h2⟩)
      · exact Or.inl (Or.inl h)
      · exact Or.inl (Or.inr (Prod.ext h1 h2))
      · exact Or.inr ⟨h1, h2⟩

theorem mem_skip_foldl (skipF : String × List String → Bool) :
    ∀ (l : Entry) (init : AttrSet) (x : AttrVal),
      x ∈ l.foldl (fun set a => if skipF a then set
          else a.2.foldl (fun s v => setAdd s (a.1, v)) set) init ↔
        x ∈ init ∨ ∃ a ∈ l, skipF a = false ∧ x.1 = a.1 ∧ x.2 ∈ a.2 := by
  intro l
  induction l with
  | nil =>
    intro init x
    simp
  | cons a l ih =>
    intro init x
    rw [List.foldl_cons]
    cases hs : skipF a
    · simp only [Bool.false_eq_true, if_false, ih, mem_valuesFold]
      constructor
      · rintro ((h | ⟨h1, h2⟩) | ⟨b, hb, hbs, h1, h2⟩)
        · exact Or.inl h
        · exact Or.inr ⟨a, List.mem_cons_self a l, hs, h1, h2⟩
        · exact Or.inr ⟨b, List.mem_cons_of_mem a hb, hbs, h1, h2⟩
      · rintro (h | ⟨b, hb, hbs, h1, h2⟩)
        · exact Or.inl (Or.inl h)
        · rw [List.mem_cons] at hb
          rcases hb with rfl | hb
          · exact Or.inl (Or.inr ⟨h1, h2⟩)
          · exact Or.inr ⟨b, hb, hbs, h1, h2⟩
    · simp only [if_true, ih]
      constructor
      · rintro (h | ⟨b, hb, hbs, h1, h2⟩)
        · exact Or.inl h
        · exact Or.inr ⟨b, List.mem_cons_of_mem a hb, hbs, h1, h2⟩
      · rintro (h | ⟨b, hb, hbs, h1, h2⟩)
        · exact Or.inl h
        · rw [List.mem_cons] at hb
          rcases hb with rfl | hb
          · rw [hs] at hbs
            cases hbs
          · exact Or.inr ⟨b, hb, hbs, h1, h2⟩

theorem mem_buildLdapSet (dn : String) (entryAttrs : Entry) (x : AttrVal) :
    x ∈ buildLdapSet dn entryAttrs ↔
      ∃ a ∈ entryAttrs,
        (a.2.length == 1 && dn.startsWith (a.1 ++ "=" ++ a.2.headD "")) =
          false ∧
        x.1 = a.1 ∧ x.2 ∈ a.2 := by
  have h := mem_skip_foldl
    (fun a => a.2.length == 1 && dn.startsWith (a.1 ++ "=" ++ a.2.headD ""))
    entryAttrs [] x
  simp only [List.not_mem_nil, false_or] at h
  exact h

/-- Between the boolean RDN test of the source (length 1, rendered pair
starts the DN) and the claim's phrasing, for a value `x.2` that the attribute
actually holds. -/
theorem rdnCond_eq_false_iff (dn : String) (a : String × List String)
    (x : AttrVal) (h1 : x.1 = a.1) (h2 : x.2 ∈ a.2) :
    (a.2.length == 1 && dn.startsWith (a.1 ++ "=" ++ a.2.headD "")) = false ↔
      ¬(a.2 = [x.2] ∧ dn.startsWith (x.1 ++ "=" ++ x.2)) := by
  constructor
  · rintro h ⟨heq, hpre⟩
    rw [heq, ← h1] at h
    simp [hpre] at h
  · intro h
    cases hl : (a.2.length == 1)
    · simp [hl]
    · have hlen : a.2.length = 1 := eq_of_beq hl
      obtain ⟨v, hv⟩ := List.length_eq_one.mp hlen
      rw [hv, List.mem_singleton] at h2
      subst h2
      cases hp : dn.startsWith (a.1 ++ "=" ++ a.2.headD "")
      · simp [hp]
      · exfalso
        apply h
        refine ⟨hv, ?_⟩
        rw [hv] at hp
        rw [h1]
        simpa using hp

theorem mem_buildLdapSet_rdn (dn : String) (entryAttrs : Entry) (x : AttrVal) :
    x ∈ buildLdapSet dn entryAttrs ↔
      ∃ a ∈ entryAttrs, x.1 = a.1 ∧ x.2 ∈ a.2 ∧
        ¬(a.2 = [x.2] ∧ dn.startsWith (x.1 ++ "=" ++ x.2)) := by
  rw [mem_buildLdapSet]
  constructor
  · rintro ⟨a, ha, hc, h1, h2⟩
    exact ⟨a, ha, h1, h2, (rdnCond_eq_false_iff dn a x h1 h2).mp hc⟩
  · rintro ⟨a, ha, h1, h2, hn⟩
    exact ⟨a, ha, (rdnCond_eq_false_iff dn a x h1 h2).mpr hn, h1, h2⟩

theorem buildReadAttrSet_eq_foldl (dn : String) (skips sels : List String)
    (entryAttrs : Entry) :
    buildReadAttrSet dn skips sels entryAttrs =
      entryAttrs.foldl (fun set a =>
        if (stringSliceContains skips a.1 ||
            (decide (sels.length > 0) && !stringSliceContains sels a.1) ||
            (a.2.length == 1 && dn.startsWith (a.1 ++ "=" ++ a.2.headD "")))
        then set
        else a.2.foldl (fun s v => setAdd s (a.1, v)) set) [] := by
  rw [buildReadAttrSet]
  congr 1
  funext set a
  by_cases h1 : stringSliceContains skips a.1 = true
  · simp [h1]
  · by_cases h2 :
      (decide (sels.length > 0) && !stringSliceContains sels a.1) = true
    · simp [h1, h2]
    · by_cases h3 : (a.2.length == 1 &&
        dn.startsWith (a.1 ++ "=" ++ a.2.headD "")) = true
      · simp [h1, h2, h3]
      · simp [h1, h2, h3]

theorem mem_buildReadAttrSet (dn : String) (skips sels : List String)
    (entryAttrs : Entry) (x : AttrVal) :
    x ∈ buildReadAttrSet dn skips sels entryAttrs ↔
      ∃ a ∈ entryAttrs,
        stringSliceContains skips a.1 = false ∧
        (decide (sels.length > 0) && !stringSliceContains sels a.1) = false ∧
        x.1 = a.1 ∧ x.2 ∈ a.2 ∧
        ¬(a.2 = [x.2] ∧ dn.startsWith (x.1 ++ "=" ++ x.2)) := by
  rw [buildReadAttrSet_eq_foldl]
  have h := mem_skip_foldl
    (fun a => stringSliceContains skips a.1 ||
      (decide (sels.length > 0) && !stringSliceContains sels a.1) ||
      (a.2.length == 1 && dn.startsWith (a.1 ++ "=" ++ a.2.headD "")))
    entryAttrs [] x
  simp only [List.not_mem_nil, false_or] at h
  rw [h]
  constructor
  · rintro ⟨a, ha, hor, h1, h2⟩
    rw [Bool.or_eq_false_iff, Bool.or_eq_false_iff] at hor
    obtain ⟨⟨hb1, hb2⟩, hb3⟩ := hor
    exact ⟨a, ha, hb1, hb2, h1, h2,
      (rdnCond_eq_false_iff dn a x h1 h2).mp hb3⟩
  · rintro ⟨a, ha, hb1, hb2, h1, h2, hn⟩
    refine ⟨a, ha, ?_, h1, h2⟩
    rw [Bool.or_eq_false_iff, Bool.or_eq_false_iff]
    exact ⟨⟨hb1, hb2⟩, (rdnCond_eq_false_iff dn a x h1 h2).mpr hn⟩

/-! ### Lemmas about the filter policy -/

theorem shouldSkip_of_mem_skip (sels skips : List String) (k : String)
    (hk : k ∈ skips) : shouldSkipAttribute sels skips k = true := by
  have hc : stringSliceContains skips k = true :=
    (stringSliceContains_iff skips k).mpr hk
  have hl : decide (skips.length > 0) = true :=
    decide_eq_true (List.length_pos.mpr (List.ne_nil_of_mem hk))
  unfold shouldSkipAttribute
  rw [hc, hl]
  split
  · rfl
  · rfl

theorem shouldSkip_of_unselected (sels skips : List String) (k : String)
    (hne : sels ≠ []) (hk : k ∉ sels) :
    shouldSkipAttribute sels skips k = true := by
  have hc : stringSliceContains sels k = false :=
    (stringSliceContains_eq_false sels k).mpr hk
  have hl : decide (sels.length > 0) = true :=
    decide_eq_true (List.length_pos.mpr hne)
  unfold shouldSkipAttribute
  rw [hc, hl]
  rfl

theorem shouldSkip_objectClass (sels skips : List String) :
    shouldSkipAttribute sels ("objectClass" :: skips) "objectClass" = true :=
  shouldSkip_of_mem_skip sels _ _ (List.mem_cons_self _ _)

theorem deltaStep_foldl_all (skipF cond : String → Bool)
    (mk : String → Change) :
    ∀ (l : List String) (acc : List Change × List String),
      (∀ k ∈ l, skipF k = false ∧ cond k = true) →
      l.foldl (deltaStep skipF cond mk) acc = (acc.1 ++ l.map mk, acc.2) := by
  intro l
  induction l with
  | nil =>
    intro acc _
    simp
  | cons k l ih =>
    intro acc h
    have hk := h k (List.mem_cons_self k l)
    have hstep : deltaStep skipF cond mk acc k = (acc.1 ++ [mk k], acc.2) := by
      unfold deltaStep
      rw [hk.1, hk.2]
      rfl
    rw [List.foldl_cons, hstep,
      ih _ (fun j hj => h j (List.mem_cons_of_mem k hj))]
    simp

theorem createPairs_foldl_inv (skips2 sels : List String) (P : AttrVal → Prop)
    (hP : ∀ y : AttrVal, stringSliceContains skips2 y.1 = false →
      P (y.1, toAttributeValue y.1 y.2)) :
    ∀ (l : AttrSet) (acc : AttrSet), (∀ x ∈ acc, P x) →
      ∀ x ∈ l.foldl (fun m y =>
        if stringSliceContains skips2 y.1 then m
        else if decide (sels.length > 0) && !stringSliceContains sels y.1
          then m
        else m ++ [(y.1, toAttributeValue y.1 y.2)]) acc, P x := by
  intro l
  induction l with
  | nil =>
    intro acc hacc x hx
    exact hacc x hx
  | cons y l ih =>
    intro acc hacc x hx
    rw [List.foldl_cons] at hx
    refine ih _ ?_ x hx
    intro z hz
    by_cases h1 : stringSliceContains skips2 y.1 = true
    · rw [if_pos h1] at hz
      exact hacc z hz
    · rw [if_neg h1] at hz
      by_cases h2 :
          (decide (sels.length > 0) && !stringSliceContains sels y.1) = true
      · rw [if_pos h2] at hz
        exact hacc z hz
      · rw [if_neg h2, List.mem_append, List.mem_singleton] at hz
        rcases hz with hz | rfl
        · exact hacc z hz
        · exact hP y (Bool.eq_false_iff.mpr h1)

theorem createPairs_no_objectClass (attrs : AttrSet)
    (skips sels : List String) (x : AttrVal)
    (hx : x ∈ resourceLDAPObjectCreateAttrPairs attrs skips sels) :
    x.1 ≠ "objectClass" := by
  simp only [resourceLDAPObjectCreateAttrPairs] at hx
  refine createPairs_foldl_inv ("objectClass" :: skips) sels
    (fun z => z.1 ≠ "objectClass") ?_ attrs [] ?_ x hx
  · intro y hy he
    have he2 : y.1 = "objectClass" := he
    have hmem : stringSliceContains ("objectClass" :: skips) y.1 = true := by
      refine (stringSliceContains_iff _ _).mpr ?_
      rw [he2]
      exact List.mem_cons_self _ _
    rw [hmem] at hy
    cases hy
  · intro z hz
    cases hz

/-! ## The claims -/

/-- C1: idempotence of both diff engines: with old = new = S (and empty
skip/select lists) neither `computeAndAddDeltas` nor
`computeAndAddAttributeDeltas` appends any Add, Replace or Delete directive
to the modify request. -/
theorem claim1_diff_engines_idempotent (S : AttrSet) :
    computeAndAddDeltas S S [] [] = [] ∧
    computeAndAddAttributeDeltas S S = [] := by
  constructor
  · simp only [computeAndAddDeltas, setDiff_self, namesOf_nil,
      List.foldl_nil]
  · simp only [computeAndAddAttributeDeltas, setDiff_self, namesOf_nil,
      List.foldl_nil]

/-- C2: partial change on old {a:[1,2]} versus new {a:[1,3]}: the
full-ownership engine emits exactly `Replace(a, [1,3])` with all values of
`a` from the new set, while the partial-ownership engine emits exactly
`Delete(a, [2])` then `Add(a, [3])` with the literal removed/added values. -/
theorem claim2_partial_change_scenario :
    computeAndAddDeltas [("a", "1"), ("a", "2")] [("a", "1"), ("a", "3")]
        [] [] = [Change.replace "a" ["1", "3"]] ∧
    computeAndAddAttributeDeltas [("a", "1"), ("a", "2")]
        [("a", "1"), ("a", "3")] =
      [Change.del "a" ["2"], Change.add "a" ["3"]] :=
  ⟨rfl, rfl⟩

/-- C3: in partial-ownership mode no Replace is ever issued: every directive
the update and delete operations of the `ldap_object_attributes` resource
append to the modify request is a Delete or an Add. -/
theorem claim3_attributes_no_replace (attrsChanged : Bool)
    (o n attrs : AttrSet) (c : Change)
    (hc : c ∈ resourceLDAPObjectAttributesUpdateChanges attrsChanged o n ∨
        c ∈ resourceLDAPObjectAttributesDeleteChanges attrs) :
    c.isReplace = false ∧
      ∃ k vs, c = Change.del k vs ∨ c = Change.add k vs := by
  have hshape : ∃ k vs, c = Change.del k vs ∨ c = Change.add k vs := by
    rcases hc with hc | hc
    · unfold resourceLDAPObjectAttributesUpdateChanges at hc
      cases attrsChanged
      · simp at hc
      · simp only [if_true] at hc
        exact computeAndAddAttributeDeltas_shape o n c hc
    · exact computeAndAddAttributeDeltas_shape attrs [] c hc
  refine ⟨?_, hshape⟩
  obtain ⟨k, vs, rfl | rfl⟩ := hshape <;> rfl

/-- Witness for C3 at a concrete update-side directive. -/
theorem claim3_attributes_no_replace_witness :
    (Change.del "a" ["1"]).isReplace = false ∧
      ∃ k vs, Change.del "a" ["1"] = Change.del k vs ∨
        Change.del "a" ["1"] = Change.add k vs :=
  claim3_attributes_no_replace true [("a", "1")] [] []
    (Change.del "a" ["1"]) (Or.inl (by decide))

/-- C4 counterexample: on a search failing with LDAP result code 32,
`resourceLDAPObjectAttributesRead` clears the resource id but still returns
the error, not nil as the claim states. -/
theorem claim4_counterexample :
    (resourceLDAPObjectAttributesRead "cn=foo,dc=x" none []
        (Except.error (GoErr.ldap 32))).err ≠ none := by
  decide

/-- C4 (amended): whenever a directory search fails with LDAP result code 32,
`resourceLDAPObjectExists` returns (false, nil) and `readLDAPObject` with
updateState clears the id and returns nil, while
`resourceLDAPObjectAttributesRead` clears the id but returns the error. -/
theorem claim4_not_found_semantics (dn : String)
    (skipAttrs selAttrs : List String)
    (change : Option (AttrSet × AttrSet)) (cur : AttrSet) :
    resourceLDAPObjectExists (Except.error (GoErr.ldap 32)) =
      Except.ok false ∧
    readLDAPObject dn skipAttrs selAttrs true
        (Except.error (GoErr.ldap 32)) =
      ⟨IdAction.cleared, none, none⟩ ∧
    resourceLDAPObjectAttributesRead dn change cur
        (Except.error (GoErr.ldap 32)) =
      ⟨IdAction.cleared, none, some (GoErr.ldap 32)⟩ :=
  ⟨rfl, rfl, rfl⟩

/-- C5: a successful partial-ownership read-back stores exactly the
intersection of the union of the old and new owned sets (or just the
configured set when no change is pending) with the set built from the live
entry; an empty intersection clears the resource id and returns nil. -/
theorem claim5_attributes_read_back (dn : String)
    (change : Option (AttrSet × AttrSet)) (cur : AttrSet)
    (entryAttrs : Entry) :
    resourceLDAPObjectAttributesRead dn change cur (Except.ok entryAttrs) =
      (if (setInter (attributesReadUnion change cur)
            (buildLdapSet dn entryAttrs)).length == 0
       then ⟨IdAction.cleared, none, none⟩
       else ⟨IdAction.setTo dn,
         some (setInter (attributesReadUnion change cur)
           (buildLdapSet dn entryAttrs)), none⟩) ∧
    (∀ x, x ∈ setInter (attributesReadUnion change cur)
        (buildLdapSet dn entryAttrs) ↔
      x ∈ attributesReadUnion change cur ∧ x ∈ buildLdapSet dn entryAttrs) ∧
    (∀ o n x, x ∈ attributesReadUnion (some (o, n)) cur ↔ x ∈ o ∨ x ∈ n) ∧
    attributesReadUnion none cur = cur :=
  ⟨rfl, fun x => mem_setInter _ _ x, fun o n x => mem_setUnion o n x, rfl⟩

/-- C6: RDN exclusion on read-back: a pair belongs to the rebuilt set iff the
entry holds that value under that name and the attribute is not the
single-valued RDN (one value whose name=value rendering starts the DN); the
`ldap_object` builder additionally requires the name to pass its skip/select
filters. -/
theorem claim6_rdn_exclusion (dn : String) (skips sels : List String)
    (entryAttrs : Entry) (x : AttrVal) :
    (x ∈ buildLdapSet dn entryAttrs ↔
      ∃ a ∈ entryAttrs, x.1 = a.1 ∧ x.2 ∈ a.2 ∧
        ¬(a.2 = [x.2] ∧ dn.startsWith (x.1 ++ "=" ++ x.2))) ∧
    (x ∈ buildReadAttrSet dn skips sels entryAttrs ↔
      ∃ a ∈ entryAttrs,
        stringSliceContains skips a.1 = false ∧
        (decide (sels.length > 0) && !stringSliceContains sels a.1) = false ∧
        x.1 = a.1 ∧ x.2 ∈ a.2 ∧
        ¬(a.2 = [x.2] ∧ dn.startsWith (x.1 ++ "=" ++ x.2))) :=
  ⟨mem_buildLdapSet_rdn dn entryAttrs x,
   mem_buildReadAttrSet dn skips sels entryAttrs x⟩

/-- C7: filter precedence: a name that is on the deny list while the allow
list is non-empty and contains it is excluded, and more generally any name
absent from a non-empty allow list is excluded: the full-ownership engine
emits no directive for it. -/
theorem claim7_filter_precedence (os ns : AttrSet)
    (skips sels : List String) (k : String) (c : Change)
    (hk : (k ∈ skips ∧ sels ≠ [] ∧ k ∈ sels) ∨ (sels ≠ [] ∧ k ∉ sels))
    (hc : c ∈ computeAndAddDeltas os ns skips sels) :
    c.name ≠ k := by
  have hskip : shouldSkipAttribute sels skips k = true := by
    rcases hk with ⟨hks, _, _⟩ | ⟨hne, hnm⟩
    · exact shouldSkip_of_mem_skip sels skips k hks
    · exact shouldSkip_of_unselected sels skips k hne hnm
  have hns := computeAndAddDeltas_not_skipped os ns skips sels c hc
  intro he
  rw [he, hskip] at hns
  cases hns

/-- Witness for C7: with deny = [a] and allow = [a, b], diffing away
old {a:[1], b:[2]} only ever touches b. -/
theorem claim7_filter_precedence_witness :
    (Change.del "b" []).name ≠ "a" :=
  claim7_filter_precedence [("a", "1"), ("b", "2")] [] ["a"] ["a", "b"] "a"
    (Change.del "b" []) (Or.inl ⟨by decide, by decide, by decide⟩) (by decide)

/-- C8: additivity: from an empty old set, the full-ownership engine emits
exactly one Add per distinct name of S, in first-occurrence order, each
carrying all of S's values under that name (through `toAttributeValue`), and
nothing else. -/
theorem claim8_additivity (S : AttrSet) (_hS : S ≠ []) :
    computeAndAddDeltas [] S [] [] =
      (namesOf S).map (fun k => Change.add k (gatherValues S k)) ∧
    (namesOf S).Nodup ∧
    (∀ k, k ∈ namesOf S ↔ ∃ x ∈ S, x.1 = k) ∧
    (∀ k v, v ∈ gatherValues S k ↔
      ∃ x ∈ S, x.1 = k ∧ v = toAttributeValue k x.2) := by
  refine ⟨?_, nodup_namesOf S, fun k => mem_namesOf S k,
    fun k v => mem_gatherValues S k v⟩
  simp only [computeAndAddDeltas, setDiff_nil_left, setDiff_nil_right,
    setInter_nil_right, namesOf_nil, List.foldl_nil]
  rw [deltaStep_foldl_all]
  · simp
  · intro k _
    exact ⟨rfl, rfl⟩

/-- Witness for C8 at S = [(a, 1)]. -/
theorem claim8_additivity_witness :
    computeAndAddDeltas [] [("a", "1")] [] [] =
      (namesOf [("a", "1")]).map
        (fun k => Change.add k (gatherValues [("a", "1")] k)) :=
  (claim8_additivity [("a", "1")] (by decide)).1

/-- C9: `toAttributeValue` is the identity for every name other than
unicodePwd; for unicodePwd it returns the UTF-16LE encoder's output on the
double-quoted value, and that encoder never reports an error, so the
failure-fallback clause is never exercised. -/
theorem claim9_value_codec (name value : String) :
    (name ≠ "unicodePwd" → toAttributeValue name value = value) ∧
    toAttributeValue "unicodePwd" value =
      (utf16leEncoderString ("\"" ++ value ++ "\"")).1 ∧
    (utf16leEncoderString ("\"" ++ value ++ "\"")).2 = none := by
  refine ⟨?_, rfl, rfl⟩
  intro h
  have hb : ¬((name == "unicodePwd") = true) := fun hb => h (eq_of_beq hb)
  unfold toAttributeValue
  rw [if_neg hb]

/-- Witness for C9: a non-password attribute value passes through
unchanged. -/
theorem claim9_value_codec_witness : toAttributeValue "cn" "foo" = "foo" :=
  (claim9_value_codec "cn" "foo").1 (by decide)

/-- C10: "objectClass" is pushed onto the deny list ahead of the user's
skip_attributes in create, update and read of the `ldap_object` resource:
the diff never emits a directive for it (the only objectClass directive of an
update is the separate object_classes Replace), the create request never
carries it, and the read-back set never contains it, whatever the
select_attributes say. -/
theorem claim10_objectClass_invariant (classesChanged : Bool)
    (classes : List String) (attrsChanged : Bool) (o n attrs : AttrSet)
    (skips sels : List String) (dn : String) (entryAttrs : Entry)
    (updateState : Bool) (c : Change) (x : AttrVal) (s : AttrSet) :
    (c ∈ resourceLDAPObjectUpdateChanges classesChanged classes attrsChanged
        o n skips sels → c.name = "objectClass" →
      classesChanged = true ∧ c = Change.replace "objectClass" classes) ∧
    (x ∈ resourceLDAPObjectCreateAttrPairs attrs skips sels →
      x.1 ≠ "objectClass") ∧
    ((readLDAPObject dn skips sels updateState (Except.ok entryAttrs)).attrs
        = some s → x ∈ s → x.1 ≠ "objectClass") := by
  refine ⟨?_, fun hx => createPairs_no_objectClass attrs skips sels x hx, ?_⟩
  · intro hc hname
    rw [resourceLDAPObjectUpdateChanges, List.mem_append] at hc
    rcases hc with hc | hc
    · cases classesChanged
      · simp at hc
      · simp only [if_true, List.mem_singleton] at hc
        exact ⟨rfl, hc⟩
    · exfalso
      cases attrsChanged
      · simp at hc
      · simp only [if_true] at hc
        have hns := computeAndAddDeltas_not_skipped o n
          ("objectClass" :: skips) sels c hc
        rw [hname, shouldSkip_objectClass] at hns
        cases hns
  · intro hs hx
    simp only [readLDAPObject, Option.some_inj] at hs
    rw [← hs, mem_buildReadAttrSet] at hx
    obtain ⟨a, _, hb1, _, h1, _, _⟩ := hx
    intro he
    have ha : a.1 ∈ ("objectClass" :: skips) := by
      rw [← h1, he]
      exact List.mem_cons_self _ _
    exact (stringSliceContains_eq_false _ _).mp hb1 ha

/-- Witness for C10: concrete update, create and read-back instances. -/
theorem claim10_objectClass_invariant_witness :
    (true = true ∧ Change.replace "objectClass" ["top"] =
      Change.replace "objectClass" ["top"]) ∧
    ("cn", "y").1 ≠ "objectClass" := by
  have h := claim10_objectClass_invariant true ["top"] false [] []
    [("cn", "y")] [] [] "dc=x" [("cn", ["y"])] true
    (Change.replace "objectClass" ["top"]) ("cn", "y") [("cn", "y")]
  exact ⟨h.1 (by decide) rfl, h.2.1 (by decide)⟩

end LdapProvider
